import Mathlib

/-!
Verification of the `load-balancer` reverse proxy (Go).

This file gives a shallow embedding of the service routing plane of the
repository — the backend data model, the three selection algorithms
(`roundRobin`, `leastConnections`, `ipHash`), the consistent-hash ring
rebuild (`UpdateHashRing`), the health probe (`isBackendAlive`), the
request handler (`Service.ServeHTTP`), and the configuration
validation / (re)construction path (`Validate`, `NewLoadBalancer`,
`UpdateServices`, `watchConfig`) — and proves or refutes the frozen
claims about it.

Machine integers are embedded as `Nat` / `Int` with explicit reduction
modulo `2^64` (resp. two's-complement reinterpretation) exactly where
the Go code converts or wraps.  Fallible operations (slice indexing
that can panic, map lookups, config loading) return sum types making
the failure explicit.
-/

/-! ## Go machine-integer semantics -/

/-- Two's-complement reinterpretation of an integer as a signed 64-bit
value: the unique representative of `z` modulo `2^64` lying in
`[-2^63, 2^63)`.  This is what a Go conversion `int(x)` (on a 64-bit
platform) and signed-integer overflow compute. -/
def wrapInt64 (z : Int) : Int := (z + 2 ^ 63) % 2 ^ 64 - 2 ^ 63

/-- Go conversion `int(x)` of a `uint64` value `x` (64-bit platform):
values `≥ 2^63` become negative. -/
def goUint64ToInt (x : Nat) : Int := wrapInt64 (x : Int)

theorem wrapInt64_eq_self {z : Int} (h0 : 0 ≤ z) (h1 : z < 2 ^ 63) :
    wrapInt64 z = z := by
  unfold wrapInt64
  rw [Int.emod_eq_of_lt (by omega) (by omega)]
  omega

theorem goUint64ToInt_eq_self {x : Nat} (h : x < 2 ^ 63) :
    goUint64ToInt x = (x : Int) := by
  unfold goUint64ToInt
  exact wrapInt64_eq_self (by positivity) (by exact_mod_cast h)

/-! ## CRC-32 (IEEE), as computed by Go's `crc32.ChecksumIEEE`

`hash/crc32` with the IEEE polynomial is the standard reflected CRC-32:
initial value `0xFFFFFFFF`, per byte XOR into the low bits followed by
eight LSB-first reduction rounds with polynomial `0xEDB88320`, final
complement.  (The Go implementation is table-driven; the table entry
for byte `n` is exactly eight `crc32Round` steps applied to `n`, so the
two formulations agree.)  Checked against the reference vector
`CRC32("123456789") = 0xCBF43926` below. -/

def crc32Round (c : Nat) : Nat :=
  if c % 2 == 1 then (c / 2) ^^^ 0xEDB88320 else c / 2

def crc32UpdateByte (crc b : Nat) : Nat := crc32Round^[8] (crc ^^^ (b % 256))

def crc32 (bytes : List Nat) : Nat :=
  (bytes.foldl crc32UpdateByte 0xFFFFFFFF) ^^^ 0xFFFFFFFF

/-- UTF-8 encoding of a single Unicode code point (Go strings are
UTF-8; `[]byte(s)` yields these bytes). -/
def utf8EncodeChar (c : Nat) : List Nat :=
  if c < 0x80 then [c]
  else if c < 0x800 then
    [0xC0 ||| (c >>> 6), 0x80 ||| (c &&& 0x3F)]
  else if c < 0x10000 then
    [0xE0 ||| (c >>> 12), 0x80 ||| ((c >>> 6) &&& 0x3F), 0x80 ||| (c &&& 0x3F)]
  else
    [0xF0 ||| (c >>> 18), 0x80 ||| ((c >>> 12) &&& 0x3F),
     0x80 ||| ((c >>> 6) &&& 0x3F), 0x80 ||| (c &&& 0x3F)]

/-- The byte sequence of a Go string (`[]byte(s)`). -/
def strBytes (s : String) : List Nat :=
  (s.data.map (fun ch => utf8EncodeChar ch.toNat)).flatten

set_option maxRecDepth 8000 in
theorem crc32_reference_vector : crc32 (strBytes "123456789") = 0xCBF43926 := by
  decide

/-! ## Data model (`internal/proxy.go`)

`Backend` carries the parsed URL (modelled by the URL string that
`URL.String()` prints), the liveness flag and the active-connection
counter.  The reverse-proxy handle and the mutexes have no observable
pure content and are elided; atomic/locked accessors (`IsAlive`,
`GetActiveConns`) are field reads in this sequential embedding.
A Go `nil` `*Backend` slice slot (possible after a URL-parse failure
during construction) is modelled as `Option Backend` in the
construction layer below; the selection algorithms operate on services
whose slots are all populated. -/

structure Backend where
  url : String
  alive : Bool
  activeConns : Int
deriving Repr, DecidableEq

/-- Health-check configuration (`config.HealthCheckConfig`). -/
structure HealthCheckConfig where
  enabled : Bool
  interval : String
  path : String
deriving Repr, DecidableEq

/-- `internal.Service`: name, ordered backends, round-robin rotation
counter (a `uint64`, kept in `[0, 2^64)`), algorithm string, and the
consistent-hash ring: the sorted position array plus the Go map from
position to backend, modelled by its insertion sequence (a later
insertion for the same key overwrites, i.e. lookup takes the last
binding). -/
structure Service where
  name : String
  backends : List Backend
  counter : Nat
  algorithm : String
  healthCheck : HealthCheckConfig
  hashRing : List Nat
  hashMap : List (Nat × Backend)
deriving Repr, DecidableEq

/-- An inbound HTTP request, restricted to the fields the routing plane
reads: `RemoteAddr`, `URL.Path`, `Method`. -/
structure Request where
  remoteAddr : String
  path : String
  method : String
deriving Repr, DecidableEq

/-- Result of a selector: a backend, Go `nil` (no backend available),
or a runtime panic (out-of-range slice index). -/
inductive SelectResult where
  | found (b : Backend)
  | noBackend
  | panicked
deriving Repr, DecidableEq

/-! ## Round robin (`Service.roundRobin`)

```go
count := len(s.Backends)
if count == 0 { return nil }
start := atomic.AddUint64(&s.counter, 1)
for i := 0; i < count; i++ {
    idx := (int(start) + i) % count
    if s.Backends[idx].IsAlive() { return s.Backends[idx] }
}
return nil
```

`int(start)` reinterprets the `uint64` counter as a signed `int`;
`%` is Go's truncated remainder (`Int.tmod`), and indexing a slice
with a negative index panics.  `rrLoop backends start i rem` runs the
loop body with loop variable `i` and `rem` iterations left. -/

def rrLoop (backends : List Backend) (start : Nat) : Nat → Nat → SelectResult
  | _, 0 => .noBackend
  | i, rem + 1 =>
    let idx : Int := (wrapInt64 (goUint64ToInt start + (i : Int))).tmod (backends.length : Int)
    if h : 0 ≤ idx ∧ idx.toNat < backends.length then
      let b := backends.get ⟨idx.toNat, h.2⟩
      if b.alive then .found b else rrLoop backends start (i + 1) rem
    else .panicked

def roundRobin (s : Service) : SelectResult × Service :=
  let count := s.backends.length
  if count = 0 then (.noBackend, s)
  else
    let start := (s.counter + 1) % 2 ^ 64
    (rrLoop s.backends start 0 count, { s with counter := start })

/-! ## Least connections (`Service.leastConnections`)

```go
var best *Backend
min := int64(-1)
for _, b := range s.Backends {
    if !b.IsAlive() { continue }
    conns := b.GetActiveConns()
    if min == -1 || conns < min { min = conns; best = b }
}
return best
```
-/

def lcLoop : List Backend → Option Backend → Int → Option Backend
  | [], best, _ => best
  | b :: rest, best, min =>
    if !b.alive then lcLoop rest best min
    else
      let conns := b.activeConns
      if min == -1 || conns < min then lcLoop rest (some b) conns
      else lcLoop rest best min

def leastConnections (s : Service) : Option Backend :=
  lcLoop s.backends none (-1)

/-! ## `sort.Search` and Go map lookup -/

/-- Go's `sort.Search` loop body:

```go
i, j := 0, n
for i < j {
    h := int(uint(i+j) >> 1)
    if !f(h) { i = h + 1 } else { j = h }
}
return i
```
-/
def searchLoop (f : Nat → Bool) (i j : Nat) : Nat :=
  if _h : i < j then
    let m := (i + j) / 2
    if f m then searchLoop f i m else searchLoop f (m + 1) j
  else i
termination_by j - i
decreasing_by
  · have : i ≤ (i + j) / 2 := Nat.le_div_iff_mul_le (by omega) |>.mpr (by omega)
    have : (i + j) / 2 < j := Nat.div_lt_iff_lt_mul (by omega) |>.mpr (by omega)
    omega
  · have : i ≤ (i + j) / 2 := Nat.le_div_iff_mul_le (by omega) |>.mpr (by omega)
    omega

def goSortSearch (n : Nat) (f : Nat → Bool) : Nat := searchLoop f 0 n

/-- Lookup in a Go map modelled by its insertion sequence: the last
binding for a key wins (map overwrite semantics).  A missing key
yields the zero value (`nil`), modelled as `none`. -/
def goMapLookup (m : List (Nat × Backend)) (k : Nat) : Option Backend :=
  (m.reverse.find? (fun p => p.1 == k)).map (fun p => p.2)

/-! ## IP hash (`Service.ipHash`)

```go
if len(s.hashRing) == 0 { return s.roundRobin() }
ip := r.RemoteAddr
hash := crc32.ChecksumIEEE([]byte(ip))
idx := sort.Search(len(s.hashRing), func(i int) bool { return s.hashRing[i] >= hash })
if idx == len(s.hashRing) { idx = 0 }
return s.hashMap[s.hashRing[idx]]
```

The client address is hashed as the full `RemoteAddr` string
(`host:port`; the port is not stripped).  A ring position absent from
the map yields a `nil` backend, i.e. `noBackend`. -/

def ipHash (s : Service) (remoteAddr : String) : SelectResult × Service :=
  if s.hashRing.length = 0 then roundRobin s
  else
    let hash := crc32 (strBytes remoteAddr)
    let idx := goSortSearch s.hashRing.length (fun i => hash ≤ s.hashRing.getD i 0)
    let idx := if idx = s.hashRing.length then 0 else idx
    match goMapLookup s.hashMap (s.hashRing.getD idx 0) with
    | some b => (.found b, s)
    | none => (.noBackend, s)

/-! ## Dispatch (`Service.GetNextBackend`)

```go
switch s.Algorithm {
case "least-connections": return s.leastConnections()
case "ip-hash":           return s.ipHash(r)
case "round-robin":       fallthrough
default:                  return s.roundRobin()
}
```
-/

def getNextBackend (s : Service) (r : Request) : SelectResult × Service :=
  if s.algorithm = "least-connections" then
    match leastConnections s with
    | some b => (.found b, s)
    | none => (.noBackend, s)
  else if s.algorithm = "ip-hash" then ipHash s r.remoteAddr
  else roundRobin s

/-- A run of `n` consecutive selections against one service (the
rotation counter threads through). -/
def selectRun (r : Request) : Service → Nat → List SelectResult
  | _, 0 => []
  | s, n + 1 =>
    let p := getNextBackend s r
    p.1 :: selectRun r p.2 n

/-! ## Hash-ring rebuild (`Service.UpdateHashRing`)

```go
s.hashRing = []uint32{}
s.hashMap = make(map[uint32]*Backend)
for _, b := range s.Backends {
    if b.IsAlive() {
        for i := 0; i < 3; i++ {
            key := fmt.Sprintf("%s-%d", b.URL.String(), i)
            hash := crc32.ChecksumIEEE([]byte(key))
            s.hashRing = append(s.hashRing, hash)
            s.hashMap[hash] = b
        }
    }
}
sort.Slice(s.hashRing, func(i, j int) bool { return s.hashRing[i] < s.hashRing[j] })
```

The ring positions of `uint32` values have a unique non-decreasing
permutation, so `sort.Slice` is modelled by `List.mergeSort`. -/

def virtualNodeKey (b : Backend) (i : Nat) : String := b.url ++ "-" ++ toString i

/-- The `(position, backend)` pairs appended by the nested loops, in
encounter order (also the map insertion order). -/
def ringPairs (backends : List Backend) : List (Nat × Backend) :=
  (backends.filter (fun b => b.alive)).flatMap
    (fun b => (List.range 3).map (fun i => (crc32 (strBytes (virtualNodeKey b i)), b)))

def updateHashRing (s : Service) : Service :=
  let pairs := ringPairs s.backends
  { s with
    hashRing := (pairs.map (fun p => p.1)).mergeSort (fun a b => a ≤ b)
    hashMap := pairs }

/-! ## Health probe (`isBackendAlive`)

```go
target := u.Scheme + "://" + u.Host + path
resp, err := client.Head(target)
if err != nil {
    resp, err = client.Get(target)
    if err != nil { return false }
}
return resp.StatusCode >= 200 && resp.StatusCode < 500
```

The network is a parameter: for each target URL it yields either a
transport failure or a response status. -/

inductive ProbeOutcome where
  | transportFailure
  | response (status : Nat)
deriving Repr, DecidableEq

structure HttpWorld where
  headReq : String → ProbeOutcome
  getReq : String → ProbeOutcome

def probeTarget (scheme host path : String) : String :=
  scheme ++ "://" ++ host ++ path

def isBackendAlive (w : HttpWorld) (scheme host path : String) : Bool :=
  let target := probeTarget scheme host path
  match w.headReq target with
  | .response code => 200 ≤ code && code < 500
  | .transportFailure =>
    match w.getReq target with
    | .response code => 200 ≤ code && code < 500
    | .transportFailure => false

/-! ## Request handling (`Service.ServeHTTP`)

```go
rw := newResponseWriter(w)            // statusCode defaults to 200
start := time.Now()
backend := s.GetNextBackend(r)
if backend != nil {
    backend.ServeHTTP(rw, r)
    statusCode := strconv.Itoa(rw.statusCode)
    HttpRequestsTotal.WithLabelValues(s.Name, r.URL.Path, r.Method, statusCode).Inc()
    HttpRequestDurationSeconds.WithLabelValues(...).Observe(...)
    return
}
http.Error(rw, "Service Unavailable", http.StatusServiceUnavailable)
statusCode := strconv.Itoa(rw.statusCode)
HttpRequestsTotal.WithLabelValues(...).Inc()
HttpRequestDurationSeconds.WithLabelValues(...).Observe(...)
```

Forwarding through the reverse proxy is a parameter
`forward : Backend → Request → Option Nat` giving the status code the
backend writes on the wrapped response writer (`none` = no explicit
`WriteHeader`, so the captured status stays 200).  `http.Error` writes
status 503.  A selector panic propagates: no metrics are recorded. -/

structure MetricLabels where
  service : String
  path : String
  method : String
  code : String
deriving Repr, DecidableEq

structure ServeOutcome where
  status : Nat
  countEvents : List MetricLabels
  durationEvents : List MetricLabels
deriving Repr, DecidableEq

inductive ServeResult where
  | completed (o : ServeOutcome)
  | panicked
deriving Repr, DecidableEq

def serveHTTP (forward : Backend → Request → Option Nat) (s : Service)
    (r : Request) : ServeResult × Service :=
  let p := getNextBackend s r
  match p.1 with
  | .found b =>
    let status := (forward b r).getD 200
    (.completed
      { status := status
        countEvents := [⟨s.name, r.path, r.method, toString status⟩]
        durationEvents := [⟨s.name, r.path, r.method, toString status⟩] }, p.2)
  | .noBackend =>
    (.completed
      { status := 503
        countEvents := [⟨s.name, r.path, r.method, toString 503⟩]
        durationEvents := [⟨s.name, r.path, r.method, toString 503⟩] }, p.2)
  | .panicked => (.panicked, p.2)

/-! ## Configuration, validation and (re)construction
(`config` package, `internal.NewLoadBalancer`, `internal.UpdateServices`,
`main.watchConfig`) -/

/-- `config.ServiceType`. -/
structure ServiceType where
  name : String
  backends : List String
  urlPath : String
  algorithm : String
  healthCheck : HealthCheckConfig
deriving Repr, DecidableEq

/-- `config.ConfigType`. -/
structure ConfigType where
  services : List ServiceType
deriving Repr, DecidableEq

/-- `ServiceType.Validate`:

```go
if s.UrlPath[0] != '/' {
    logger.Error(...)
    panic("validation error: URLPath: " + s.UrlPath)
}
if s.Algorithm == "" { s.Algorithm = "round-robin" }
```

`none` models a panic (indexing `s.UrlPath[0]` of an empty string also
panics). -/
def validateService (sc : ServiceType) : Option ServiceType :=
  match sc.urlPath.data with
  | [] => none
  | c :: _ =>
    if c ≠ '/' then none
    else some { sc with algorithm := if sc.algorithm = "" then "round-robin" else sc.algorithm }

/-- The backend-slot construction loop shared by `NewLoadBalancer` and
`UpdateServices`:

```go
backends := make([]*Backend, len(serviceConf.Backends))
for i, backendURL := range serviceConf.Backends {
    u, err := url.Parse(backendURL)
    if err != nil { logger.Error(...); continue }
    proxy := httputil.NewSingleHostReverseProxy(u)
    proxy.ErrorHandler = ...
    backends[i] = &Backend{URL: u, ReverseProxy: proxy, Alive: true}
}
```

`url.Parse` is a parameter (`none` = error).  A slot left `nil` by
`continue` is `none`; `ActiveConns` starts at the zero value. -/
def mkBackendSlots (parseURL : String → Option String) (urls : List String) :
    List (Option Backend) :=
  urls.map (fun raw =>
    (parseURL raw).map (fun u => { url := u, alive := true, activeConns := 0 }))

/-- A service as assembled by `NewLoadBalancer` / `UpdateServices`
(before `StartHealthCheck` / `UpdateHashRing` run). -/
structure BuiltService where
  name : String
  slots : List (Option Backend)
  algorithm : String
  healthCheck : HealthCheckConfig
deriving Repr, DecidableEq

def buildService (parseURL : String → Option String) (sc : ServiceType) :
    BuiltService :=
  { name := sc.name
    slots := mkBackendSlots parseURL sc.backends
    algorithm := sc.algorithm
    healthCheck := sc.healthCheck }

/-- The service-construction loop shared by `NewLoadBalancer` and
`UpdateServices`: validate each service configuration in order (a
validation panic kills the process: `none`) and collect the
`path → service` entries. -/
def buildServiceEntries (parseURL : String → Option String) :
    List ServiceType → Option (List (String × BuiltService))
  | [] => some []
  | sc :: rest =>
    match validateService sc with
    | none => none
    | some sc' =>
      match buildServiceEntries parseURL rest with
      | none => none
      | some l => some ((sc'.urlPath, buildService parseURL sc') :: l)

/-- `internal.NewLoadBalancer`: the path → service map, modelled as an
association list in configuration order. -/
def newLoadBalancer (parseURL : String → Option String) (conf : ConfigType) :
    Option (List (String × BuiltService)) :=
  buildServiceEntries parseURL conf.services

/-- `internal.LoadBalancer.UpdateServices`: builds a fresh service map
from the new configuration exactly as `NewLoadBalancer` does and
replaces the old map wholesale. -/
def updateServices (parseURL : String → Option String) (conf : ConfigType)
    (_old : List (String × BuiltService)) : Option (List (String × BuiltService)) :=
  buildServiceEntries parseURL conf.services

/-- Outcome of one file-change event in `main.watchConfig`. -/
inductive ReloadOutcome where
  | updated (services : List (String × BuiltService))
  | processExit
deriving Repr, DecidableEq

/-- One reload step of `main.watchConfig`:

```go
config.Load(configPath)          // on error: logger.Panic → os.Exit(1)
newConf := config.GetConfig()
loadBalancer.UpdateServices(&newConf)
```

`config.Load` calls `logger.Panic` (which logs and then calls
`os.Exit(1)`) when the file cannot be read or the YAML does not
unmarshal; a `ServiceType.Validate` panic inside `UpdateServices`
likewise crashes the process.  Both are `processExit`. -/
def watchReloadStep (readFile : String → Option String)
    (parseYaml : String → Option ConfigType)
    (parseURL : String → Option String) (path : String)
    (old : List (String × BuiltService)) : ReloadOutcome :=
  match readFile path with
  | none => .processExit
  | some buff =>
    match parseYaml buff with
    | none => .processExit
    | some conf =>
      match updateServices parseURL conf old with
      | none => .processExit
      | some svcs => .updated svcs

/-! ## Spec-side reference definitions (for refinement statements) -/

/-- Default value used with `List.getD` when an index is already known
to be in range. -/
def nilBackend : Backend := { url := "", alive := false, activeConns := 0 }

/-- One comparison step of the least-connections reference selection:
the incumbent is replaced only on a strictly smaller count, so the
first minimum encountered wins. -/
def lcFold (best x : Backend) : Backend :=
  if x.activeConns < best.activeConns then x else best

/-- Modelled from the spec: "among backends with liveness true, return
the one with the smallest active-connection count; ties broken by
insertion order (first encountered wins); if all backends are down,
return no-backend." -/
def leastConnSpec (backends : List Backend) : Option Backend :=
  match backends.filter (fun b => b.alive) with
  | [] => none
  | b :: rest => some (rest.foldl lcFold b)

/-- Modelled from the spec: "binary-search the sorted ring for the
smallest position `≥ hash`; wrap to index 0 if the hash exceeds the
maximum" — the chosen ring position, as the head of the suffix of
positions `≥ hash`, wrapping to the first position. -/
def ringTargetSpec (ring : List Nat) (hash : Nat) : Option Nat :=
  match ring.filter (fun v => hash ≤ v) with
  | [] => ring.head?
  | v :: _ => some v

/-! ## Helper lemmas -/

theorem buildServiceEntries_mem (parseURL : String → Option String) :
    ∀ (scs : List ServiceType) (l : List (String × BuiltService)),
      buildServiceEntries parseURL scs = some l →
      ∀ e ∈ l, ∃ sc ∈ scs, ∃ sc', validateService sc = some sc' ∧
        e = (sc'.urlPath, buildService parseURL sc') := by
  intro scs
  induction scs with
  | nil =>
    intro l h e he
    simp [buildServiceEntries] at h
    subst h
    simp at he
  | cons sc rest ih =>
    intro l h e he
    unfold buildServiceEntries at h
    cases hv : validateService sc with
    | none => rw [hv] at h; exact absurd h (by simp)
    | some sc' =>
      rw [hv] at h
      cases hrest : buildServiceEntries parseURL rest with
      | none => rw [hrest] at h; exact absurd h (by simp)
      | some l' =>
        rw [hrest] at h
        simp at h
        subst h
        rcases List.mem_cons.mp he with he0 | he'
        · exact ⟨sc, List.mem_cons_self sc rest, sc', hv, he0⟩
        · obtain ⟨sc0, hsc0, sc0', hv0, he0⟩ := ih l' hrest e he'
          exact ⟨sc0, List.mem_cons_of_mem sc hsc0, sc0', hv0, he0⟩

/-! ## C2 — counter values at and beyond `2^63`

The claim asserts that the index computation stays in bounds for every
64-bit counter value.  It does not: Go's `int(start)` reinterprets the
counter as a signed integer, so for `start ≥ 2^63` the truncated
remainder `(int(start) + i) % count` can be negative and the slice
access panics.  Concretely, with two (alive) backends and counter
value `2^63`, the increment produces `start = 2^63 + 1`,
`int(start) = -(2^63 - 1)` is odd and negative, and the very first
index is `(-(2^63 - 1)) % 2 = -1`. -/

def c2Service : Service :=
  { name := "svc"
    backends := [{ url := "http://b1", alive := true, activeConns := 0 },
                 { url := "http://b2", alive := true, activeConns := 0 }]
    counter := 2 ^ 63
    algorithm := "round-robin"
    healthCheck := { enabled := false, interval := "", path := "" }
    hashRing := []
    hashMap := [] }

/-- C2: refuted on the code — with both backends alive and rotation
counter `2^63`, round-robin selection panics on a negative slice index
instead of returning a backend; the claim that the computed index is
always within bounds (so that counter wraparound is harmless) is the
documented intent (`(start + i) mod N`), and the signed conversion in
the code is the slip. -/
theorem c2_counter_at_two63_panics :
    (roundRobin c2Service).1 = SelectResult.panicked := by decide

/-! ## C6 — health probe classification -/

/-- C6: a backend is classified alive iff a `HEAD` request — or, when
`HEAD` fails at the transport level, a `GET` request — to
`{scheme}://{host}{probe-path}` returns a status in `[200, 500)`;
transport failure of both attempts, or a status outside that range on
the attempt that got through, classifies it dead. -/
theorem c6_probe_classification (w : HttpWorld) (scheme host path : String) :
    isBackendAlive w scheme host path = true ↔
      ((∃ c, w.headReq (probeTarget scheme host path) = .response c ∧
          200 ≤ c ∧ c < 500) ∨
       (w.headReq (probeTarget scheme host path) = .transportFailure ∧
        ∃ c, w.getReq (probeTarget scheme host path) = .response c ∧
          200 ≤ c ∧ c < 500)) := by
  unfold isBackendAlive
  cases hh : w.headReq (probeTarget scheme host path) with
  | transportFailure =>
    cases hg : w.getReq (probeTarget scheme host path) with
    | transportFailure => simp [hh, hg]
    | response c => simp [hh, hg, Bool.and_eq_true, decide_eq_true_eq]
  | response c => simp [hh, Bool.and_eq_true, decide_eq_true_eq]

/-! ## C10 — unrecognized algorithms fall through to round robin -/

/-- C10: backend selection falls through to round-robin for every
algorithm string other than exactly `"least-connections"` or
`"ip-hash"` (not only the empty string), while config validation
rewrites only the empty algorithm string to `"round-robin"`. -/
theorem c10_fallthrough_and_validation (s : Service) (r : Request)
    (sc sc' : ServiceType)
    (h1 : s.algorithm ≠ "least-connections") (h2 : s.algorithm ≠ "ip-hash")
    (hv : validateService sc = some sc') :
    getNextBackend s r = roundRobin s ∧
      sc'.algorithm = (if sc.algorithm = "" then "round-robin" else sc.algorithm) := by
  constructor
  · unfold getNextBackend
    rw [if_neg h1, if_neg h2]
  · unfold validateService at hv
    split at hv
    · exact absurd hv (by simp)
    · split at hv
      · exact absurd hv (by simp)
      · injection hv with hv
        rw [← hv]

def c10Service : Service :=
  { name := "svc"
    backends := []
    counter := 0
    algorithm := "weighted"
    healthCheck := { enabled := false, interval := "", path := "" }
    hashRing := []
    hashMap := [] }

def c10ServiceConf : ServiceType :=
  { name := "svc"
    backends := ["http://b1"]
    urlPath := "/a"
    algorithm := ""
    healthCheck := { enabled := false, interval := "", path := "" } }

theorem c10_witness :
    c10Service.algorithm ≠ "least-connections" ∧
      c10Service.algorithm ≠ "ip-hash" ∧
      validateService c10ServiceConf = some { c10ServiceConf with algorithm := "round-robin" } ∧
      (getNextBackend c10Service { remoteAddr := "", path := "/a", method := "GET" } =
          roundRobin c10Service ∧
        ({ c10ServiceConf with algorithm := "round-robin" } : ServiceType).algorithm =
          (if c10ServiceConf.algorithm = "" then "round-robin" else c10ServiceConf.algorithm)) :=
  ⟨by decide, by decide, by decide,
    c10_fallthrough_and_validation c10Service _ c10ServiceConf _ (by decide) (by decide) (by decide)⟩

/-! ## C9 — backends are constructed alive -/

/-- C9: every Backend constructed during Router construction
(`NewLoadBalancer`) or reload (`UpdateServices`) has its liveness flag
initialized to `true` before any health probe has run, regardless of
whether active health checks are enabled for its service (the struct
literal sets `Alive: true`; `StartHealthCheck` runs only afterwards). -/
theorem c9_constructed_backends_alive (parseURL : String → Option String)
    (conf : ConfigType) (old : List (String × BuiltService)) (path : String)
    (svc : BuiltService) (ob : Option Backend) (b : Backend)
    (hmem : (∃ l, newLoadBalancer parseURL conf = some l ∧ (path, svc) ∈ l) ∨
            (∃ l, updateServices parseURL conf old = some l ∧ (path, svc) ∈ l))
    (hslot : ob ∈ svc.slots) (hb : ob = some b) : b.alive = true := by
  have hentries : ∃ l, buildServiceEntries parseURL conf.services = some l ∧
      (path, svc) ∈ l := by
    rcases hmem with ⟨l, hl, hm⟩ | ⟨l, hl, hm⟩
    · exact ⟨l, hl, hm⟩
    · exact ⟨l, hl, hm⟩
  obtain ⟨l, hl, hm⟩ := hentries
  obtain ⟨sc, -, sc', -, he⟩ := buildServiceEntries_mem parseURL conf.services l hl _ hm
  have hsvc : svc = buildService parseURL sc' := congrArg Prod.snd he
  rw [hsvc] at hslot
  unfold buildService mkBackendSlots at hslot
  simp only [List.mem_map] at hslot
  obtain ⟨raw, -, hraw⟩ := hslot
  rw [hb] at hraw
  cases hp : parseURL raw with
  | none => rw [hp] at hraw; exact absurd hraw (by simp)
  | some u =>
    rw [hp] at hraw
    simp only [Option.map_some'] at hraw
    injection hraw with hraw
    rw [← hraw]

def c9Conf : ConfigType :=
  { services := [{ name := "web"
                   backends := ["http://b1"]
                   urlPath := "/a"
                   algorithm := ""
                   healthCheck := { enabled := true, interval := "10s", path := "/health" } }] }

theorem c9_witness :
    ({ url := "http://b1", alive := true, activeConns := 0 } : Backend).alive = true :=
  c9_constructed_backends_alive (fun u => some u) c9Conf [] "/a"
    (buildService (fun u => some u)
      { name := "web", backends := ["http://b1"], urlPath := "/a",
        algorithm := "round-robin",
        healthCheck := { enabled := true, interval := "10s", path := "/health" } })
    (some { url := "http://b1", alive := true, activeConns := 0 })
    { url := "http://b1", alive := true, activeConns := 0 }
    (Or.inl ⟨_, rfl, by simp⟩) (by simp [buildService, mkBackendSlots]) rfl

/-! ## C8 — reload failure after startup terminates the process -/

/-- Formalization of the C8 claim: on a reload where the config file
cannot be read, the previous generation is kept serving and the
process does not crash. -/
def reloadKeepsServingOnFailure : Prop :=
  ∀ (readFile : String → Option String) (parseYaml : String → Option ConfigType)
    (parseURL : String → Option String) (path : String)
    (old : List (String × BuiltService)),
    readFile path = none →
    watchReloadStep readFile parseYaml parseURL path old = .updated old

/-- C8 is refuted on the code: at the concrete input where the config
file is unreadable (`readFile ≡ none`), `config.Load` calls
`logger.Panic`, which logs and then calls `os.Exit(1)` — the process
terminates instead of keeping the previous Router generation. -/
theorem c8_counterexample : ¬ reloadKeepsServingOnFailure := by
  intro h
  have := h (fun _ => none) (fun _ => none) (fun _ => none) "./config.yml" [] rfl
  simp [watchReloadStep] at this

/-- C8 (amended): if reloading the configuration after startup fails —
config file unreadable or YAML malformed — the error is logged and the
process exits with status 1 (`logger.Panic` runs `os.Exit(1)`); the
previous Router generation does not keep serving. -/
theorem c8_amended_reload_failure_exits (readFile : String → Option String)
    (parseYaml : String → Option ConfigType) (parseURL : String → Option String)
    (path : String) (old : List (String × BuiltService))
    (h : readFile path = none ∨
         ∃ buff, readFile path = some buff ∧ parseYaml buff = none) :
    watchReloadStep readFile parseYaml parseURL path old = .processExit := by
  rcases h with h | ⟨buff, h1, h2⟩
  · unfold watchReloadStep
    rw [h]
  · unfold watchReloadStep
    simp only [h1, h2]

theorem c8_witness :
    ((fun _ : String => (none : Option String)) "./config.yml" = none) ∧
      watchReloadStep (fun _ => none) (fun _ => none) (fun _ => none)
        "./config.yml" [] = .processExit :=
  ⟨rfl, c8_amended_reload_failure_exits (fun _ => none) (fun _ => none)
    (fun _ => none) "./config.yml" [] (Or.inl rfl)⟩

/-! ## C3 — least connections -/

theorem lcLoop_some (l : List Backend) :
    (∀ x ∈ l, 0 ≤ x.activeConns) → ∀ b : Backend, 0 ≤ b.activeConns →
      lcLoop l (some b) b.activeConns =
        some ((l.filter (fun x => x.alive)).foldl lcFold b) := by
  induction l with
  | nil => intro _ b _; rfl
  | cons x rest ih =>
    intro hl b hb
    have hrest : ∀ y ∈ rest, 0 ≤ y.activeConns :=
      fun y hy => hl y (List.mem_cons_of_mem x hy)
    by_cases hx : x.alive
    · have hxc : 0 ≤ x.activeConns := hl x (List.mem_cons_self x rest)
      have hbne : (b.activeConns == -1) = false := by
        simp only [beq_eq_false_iff_ne, ne_eq]
        omega
      rw [List.filter_cons_of_pos (by simp [hx])]
      by_cases hlt : x.activeConns < b.activeConns
      · have hstep : lcLoop (x :: rest) (some b) b.activeConns =
            lcLoop rest (some x) x.activeConns := by
          simp [lcLoop, hx, hbne, hlt]
        rw [hstep, ih hrest x hxc, List.foldl_cons]
        simp [lcFold, hlt]
      · have hstep : lcLoop (x :: rest) (some b) b.activeConns =
            lcLoop rest (some b) b.activeConns := by
          simp [lcLoop, hx, hbne, hlt]
        rw [hstep, ih hrest b hb, List.foldl_cons]
        simp [lcFold, hlt]
    · have hstep : lcLoop (x :: rest) (some b) b.activeConns =
          lcLoop rest (some b) b.activeConns := by
        simp [lcLoop, hx]
      rw [hstep, ih hrest b hb, List.filter_cons_of_neg (by simp [hx])]

theorem lcLoop_none (l : List Backend) :
    (∀ x ∈ l, 0 ≤ x.activeConns) →
      lcLoop l none (-1) = leastConnSpec l := by
  induction l with
  | nil => intro _; rfl
  | cons x rest ih =>
    intro hl
    have hrest : ∀ y ∈ rest, 0 ≤ y.activeConns :=
      fun y hy => hl y (List.mem_cons_of_mem x hy)
    by_cases hx : x.alive
    · have hxc : 0 ≤ x.activeConns := hl x (List.mem_cons_self x rest)
      have hstep : lcLoop (x :: rest) none (-1) =
          lcLoop rest (some x) x.activeConns := by
        simp [lcLoop, hx]
      rw [hstep, lcLoop_some rest hrest x hxc]
      unfold leastConnSpec
      rw [List.filter_cons_of_pos (by simp [hx])]
    · have hstep : lcLoop (x :: rest) none (-1) = lcLoop rest none (-1) := by
        simp [lcLoop, hx]
      rw [hstep, ih hrest]
      unfold leastConnSpec
      rw [List.filter_cons_of_neg (by simp [hx])]

theorem lcFold_mem (l : List Backend) :
    ∀ y : Backend, l.foldl lcFold y = y ∨ l.foldl lcFold y ∈ l := by
  induction l with
  | nil => intro y; exact Or.inl rfl
  | cons x rest ih =>
    intro y
    rw [List.foldl_cons]
    rcases ih (lcFold y x) with h | h
    · rw [h]
      unfold lcFold
      by_cases hlt : x.activeConns < y.activeConns
      · rw [if_pos hlt]; exact Or.inr (List.mem_cons_self x rest)
      · rw [if_neg hlt]; exact Or.inl rfl
    · exact Or.inr (List.mem_cons_of_mem x h)

theorem lcFold_le_init (l : List Backend) :
    ∀ y : Backend, (l.foldl lcFold y).activeConns ≤ y.activeConns := by
  induction l with
  | nil => intro y; exact le_refl _
  | cons x rest ih =>
    intro y
    rw [List.foldl_cons]
    refine le_trans (ih (lcFold y x)) ?_
    unfold lcFold
    by_cases hlt : x.activeConns < y.activeConns
    · rw [if_pos hlt]; exact le_of_lt hlt
    · rw [if_neg hlt]

theorem lcFold_le_mem (l : List Backend) :
    ∀ y : Backend, ∀ x ∈ l, (l.foldl lcFold y).activeConns ≤ x.activeConns := by
  induction l with
  | nil => intro y x hx; simp at hx
  | cons z rest ih =>
    intro y x hx
    rw [List.foldl_cons]
    rcases List.mem_cons.mp hx with rfl | hx'
    · refine le_trans (lcFold_le_init rest (lcFold y x)) ?_
      unfold lcFold
      by_cases hlt : x.activeConns < y.activeConns
      · rw [if_pos hlt]
      · rw [if_neg hlt]; exact le_of_not_lt hlt
    · exact ih (lcFold y z) x hx'

/-- C3: least-connections selection returns exactly the reference
selection `leastConnSpec` — the alive backend with the smallest
active-connection count at the moment of scan, ties broken by
insertion order with the first encountered winning — and returns the
no-backend sentinel precisely when no backend is alive.  The stated
consequences (membership, liveness, minimality of the winner) are
included explicitly.  The hypothesis that connection counters are
non-negative is the data-model invariant (every increment is paired
with a decrement); without it the `-1` sentinel inside the scan could
collide with a genuine counter value. -/
theorem leastConnSpec_eq_none_iff (l : List Backend) :
    leastConnSpec l = none ↔ ∀ b ∈ l, b.alive = false := by
  unfold leastConnSpec
  cases hf : l.filter (fun b => b.alive) with
  | nil =>
    simp only [true_iff]
    intro b hb
    by_contra hba
    have hmem : b ∈ l.filter (fun b => b.alive) :=
      List.mem_filter.mpr ⟨hb, by simpa using hba⟩
    rw [hf] at hmem
    simp at hmem
  | cons y rest =>
    simp only [iff_false, reduceCtorEq, false_iff]
    intro hall
    have hmem : y ∈ l.filter (fun b => b.alive) := by
      rw [hf]; exact List.mem_cons_self y rest
    have := List.mem_filter.mp hmem
    have := hall y this.1
    simp_all

theorem leastConnSpec_some_props (l : List Backend) (b : Backend)
    (h : leastConnSpec l = some b) :
    b ∈ l ∧ b.alive = true ∧
      ∀ x ∈ l, x.alive = true → b.activeConns ≤ x.activeConns := by
  unfold leastConnSpec at h
  cases hf : l.filter (fun x => x.alive) with
  | nil => rw [hf] at h; simp at h
  | cons y rest =>
    rw [hf] at h
    simp only [Option.some.injEq] at h
    have hbmemf : b ∈ l.filter (fun x => x.alive) := by
      rw [hf]
      rcases lcFold_mem rest y with hy | hy
      · rw [← h, hy]; exact List.mem_cons_self y rest
      · rw [← h]; exact List.mem_cons_of_mem y hy
    have hbf := List.mem_filter.mp hbmemf
    refine ⟨hbf.1, by simpa using hbf.2, ?_⟩
    intro x hx hxa
    have hxf : x ∈ l.filter (fun x => x.alive) :=
      List.mem_filter.mpr ⟨hx, by simpa using hxa⟩
    rw [hf] at hxf
    rcases List.mem_cons.mp hxf with heq | hx'
    · rw [heq, ← h]; exact lcFold_le_init rest y
    · rw [← h]; exact lcFold_le_mem rest y x hx'

/-- C3: least-connections selection returns exactly the reference
selection `leastConnSpec` — the alive backend with the smallest
active-connection count at the moment of scan, ties broken by
insertion order with the first encountered winning — and returns the
no-backend sentinel precisely when no backend is alive.  The stated
consequences (membership, liveness, minimality of the winner) are
included explicitly.  The hypothesis that connection counters are
non-negative is the data-model invariant (every increment is paired
with a decrement); without it the `-1` sentinel inside the scan could
collide with a genuine counter value. -/
theorem c3_least_connections (s : Service)
    (h : ∀ b ∈ s.backends, 0 ≤ b.activeConns) :
    leastConnections s = leastConnSpec s.backends ∧
      (leastConnections s = none ↔ ∀ b ∈ s.backends, b.alive = false) ∧
      (∀ b, leastConnections s = some b →
        b ∈ s.backends ∧ b.alive = true ∧
          ∀ x ∈ s.backends, x.alive = true → b.activeConns ≤ x.activeConns) := by
  have hspec : leastConnections s = leastConnSpec s.backends :=
    lcLoop_none s.backends h
  refine ⟨hspec, ?_, ?_⟩
  · rw [hspec]
    exact leastConnSpec_eq_none_iff s.backends
  · intro b hb
    rw [hspec] at hb
    exact leastConnSpec_some_props s.backends b hb

def c3Service : Service :=
  { name := "svc"
    backends := [{ url := "http://b1", alive := true, activeConns := 2 },
                 { url := "http://b2", alive := true, activeConns := 1 },
                 { url := "http://b3", alive := false, activeConns := 0 }]
    counter := 0
    algorithm := "least-connections"
    healthCheck := { enabled := false, interval := "", path := "" }
    hashRing := []
    hashMap := [] }

theorem c3_witness :
    (∀ b ∈ c3Service.backends, 0 ≤ b.activeConns) ∧
      (leastConnections c3Service = leastConnSpec c3Service.backends ∧
        (leastConnections c3Service = none ↔
          ∀ b ∈ c3Service.backends, b.alive = false) ∧
        (∀ b, leastConnections c3Service = some b →
          b ∈ c3Service.backends ∧ b.alive = true ∧
            ∀ x ∈ c3Service.backends, x.alive = true →
              b.activeConns ≤ x.activeConns)) :=
  ⟨by decide, c3_least_connections c3Service (by decide)⟩

/-! ## C5 — hash-ring rebuild invariants -/

theorem ringPairs_mem (backends : List Backend) (p : Nat × Backend)
    (hp : p ∈ ringPairs backends) :
    p.2 ∈ backends ∧ p.2.alive = true ∧
      ∃ i, i < 3 ∧ p.1 = crc32 (strBytes (virtualNodeKey p.2 i)) := by
  unfold ringPairs at hp
  rw [List.mem_flatMap] at hp
  obtain ⟨b, hb, hp2⟩ := hp
  rw [List.mem_map] at hp2
  obtain ⟨i, hi, hpe⟩ := hp2
  have hbf := List.mem_filter.mp hb
  cases hpe
  exact ⟨hbf.1, by simpa using hbf.2, i, List.mem_range.mp hi, rfl⟩

theorem ringPairs_length (backends : List Backend) :
    (ringPairs backends).length =
      3 * (backends.filter (fun b => b.alive)).length := by
  unfold ringPairs
  rw [List.length_flatMap]
  have : (List.map (List.length ∘ fun b =>
      (List.range 3).map (fun i => (crc32 (strBytes (virtualNodeKey b i)), b)))
      (backends.filter (fun b => b.alive))) =
      List.map (fun _ => 3) (backends.filter (fun b => b.alive)) := by
    apply List.map_congr_left
    intro b _
    simp
  rw [this]
  induction backends.filter (fun b => b.alive) with
  | nil => simp
  | cons x rest ih => simp [ih]; omega

/-- C5: immediately after a ring rebuild, the sorted ring array has
exactly `3 × |alive backends|` positions; every position is
`CRC-32-IEEE("<backend-url>-<i>")` for some backend alive at rebuild
time and some `i ∈ {0,1,2}`; the array is sorted ascending; and every
ring position maps (last map insertion wins) to a backend that was
alive at rebuild time.  CRC collisions can merge map entries but never
shorten the array. -/
theorem c5_ring_rebuild (s : Service) :
    (updateHashRing s).hashRing.length =
        3 * (s.backends.filter (fun b => b.alive)).length ∧
      (updateHashRing s).hashRing.Sorted (· ≤ ·) ∧
      (∀ v ∈ (updateHashRing s).hashRing, ∃ b, b ∈ s.backends ∧
        b.alive = true ∧ ∃ i, i < 3 ∧ v = crc32 (strBytes (virtualNodeKey b i))) ∧
      (∀ v ∈ (updateHashRing s).hashRing, ∃ b,
        goMapLookup (updateHashRing s).hashMap v = some b ∧
          b ∈ s.backends ∧ b.alive = true) := by
  have hperm : ((ringPairs s.backends).map (fun p => p.1)).mergeSort
      (fun a b => a ≤ b) |>.Perm ((ringPairs s.backends).map (fun p => p.1)) :=
    List.mergeSort_perm _ _
  refine ⟨?_, ?_, ?_, ?_⟩
  · show (((ringPairs s.backends).map (fun p => p.1)).mergeSort
      (fun a b => a ≤ b)).length = _
    rw [hperm.length_eq, List.length_map, ringPairs_length]
  · show List.Sorted (· ≤ ·)
      (((ringPairs s.backends).map (fun p => p.1)).mergeSort (fun a b => a ≤ b))
    have hs := @List.sorted_mergeSort Nat (fun a b : Nat => a ≤ b)
      (fun a b c hab hbc => by
        simp only [decide_eq_true_eq] at *
        omega)
      (fun a b => by
        simp only [Bool.or_eq_true, decide_eq_true_eq]
        omega)
      ((ringPairs s.backends).map (fun p => p.1))
    exact hs.imp (fun h => by simpa using h)
  · intro v hv
    have hv' : v ∈ (ringPairs s.backends).map (fun p => p.1) := hperm.mem_iff.mp hv
    rw [List.mem_map] at hv'
    obtain ⟨p, hp, hp1⟩ := hv'
    obtain ⟨hmem, halive, i, hi, hkey⟩ := ringPairs_mem s.backends p hp
    exact ⟨p.2, hmem, halive, i, hi, by rw [← hp1, hkey]⟩
  · intro v hv
    have hv' : v ∈ (ringPairs s.backends).map (fun p => p.1) := hperm.mem_iff.mp hv
    rw [List.mem_map] at hv'
    obtain ⟨p, hp, hp1⟩ := hv'
    have hrev : p ∈ (ringPairs s.backends).reverse := List.mem_reverse.mpr hp
    have hsome : ((ringPairs s.backends).reverse.find? (fun q => q.1 == v)).isSome := by
      rw [List.find?_isSome]
      exact ⟨p, hrev, by simp [hp1]⟩
    obtain ⟨q, hq⟩ := Option.isSome_iff_exists.mp hsome
    have hqmem : q ∈ (ringPairs s.backends).reverse := List.mem_of_find?_eq_some hq
    have hqpairs : q ∈ ringPairs s.backends := List.mem_reverse.mp hqmem
    obtain ⟨hqm, hqa, -⟩ := ringPairs_mem s.backends q hqpairs
    refine ⟨q.2, ?_, hqm, hqa⟩
    show goMapLookup (ringPairs s.backends) v = some q.2
    unfold goMapLookup
    rw [hq]
    rfl

/-! ## C4 — ip-hash selection -/

theorem searchLoop_unfold (f : Nat → Bool) (i j : Nat) :
    searchLoop f i j =
      if i < j then
        (if f ((i + j) / 2) then searchLoop f i ((i + j) / 2)
         else searchLoop f ((i + j) / 2 + 1) j)
      else i := by
  rw [searchLoop]
  simp only [dite_eq_ite]

/-- Correctness of Go's `sort.Search` loop for a predicate monotone on
`[0, n)`: the result `r` satisfies `i ≤ r ≤ j`, the predicate is false
strictly below `r` (within `[i, r)`), and true at `r` when `r < j`. -/
theorem searchLoop_spec (f : Nat → Bool) (n : Nat)
    (mono : ∀ a b, a ≤ b → b < n → f a = true → f b = true) :
    ∀ d i j, j - i ≤ d → j ≤ n → i ≤ j →
      i ≤ searchLoop f i j ∧ searchLoop f i j ≤ j ∧
        (∀ k, i ≤ k → k < searchLoop f i j → f k = false) ∧
        (searchLoop f i j < j → f (searchLoop f i j) = true) := by
  intro d
  induction d with
  | zero =>
    intro i j hd hj hij
    have hnlt : ¬ i < j := by omega
    rw [searchLoop_unfold, if_neg hnlt]
    exact ⟨le_refl i, hij, fun k hk1 hk2 => absurd (lt_of_le_of_lt hk1 hk2) (lt_irrefl i),
      fun h => absurd h (by omega)⟩
  | succ d ih =>
    intro i j hd hj hij
    by_cases hlt : i < j
    · rw [searchLoop_unfold, if_pos hlt]
      have hmge : i ≤ (i + j) / 2 := by omega
      have hmlt : (i + j) / 2 < j := by omega
      by_cases hf : f ((i + j) / 2)
      · rw [if_pos hf]
        obtain ⟨h1, h2, h3, h4⟩ := ih i ((i + j) / 2) (by omega) (by omega) (by omega)
        refine ⟨h1, by omega, h3, ?_⟩
        intro _
        by_cases hrm : searchLoop f i ((i + j) / 2) < (i + j) / 2
        · exact h4 hrm
        · have heq : searchLoop f i ((i + j) / 2) = (i + j) / 2 := by omega
          rw [heq]
          exact hf
      · rw [if_neg hf]
        obtain ⟨h1, h2, h3, h4⟩ := ih ((i + j) / 2 + 1) j (by omega) hj (by omega)
        refine ⟨by omega, h2, ?_, h4⟩
        intro k hk1 hk2
        by_cases hkm : (i + j) / 2 + 1 ≤ k
        · exact h3 k hkm hk2
        · by_contra hfk
          have hfk' : f k = true := by
            cases hfc : f k
            · exact absurd hfc hfk
            · rfl
          have : f ((i + j) / 2) = true := mono k ((i + j) / 2) (by omega) (by omega) hfk'
          exact absurd this (by simpa using hf)
    · rw [searchLoop_unfold, if_neg hlt]
      exact ⟨le_refl i, hij, fun k hk1 hk2 => absurd (lt_of_le_of_lt hk1 hk2) (lt_irrefl i),
        fun h => absurd h (by omega)⟩

/-- The head of the filtered list is the element at the least index
satisfying the predicate. -/
theorem filter_head_of_least {α : Type} (d : α) (p : α → Bool) :
    ∀ (l : List α) (r : Nat), r < l.length →
      (∀ k, k < r → p (l.getD k d) = false) →
      p (l.getD r d) = true →
      (l.filter p).head? = some (l.getD r d) := by
  intro l
  induction l with
  | nil => intro r hr; simp at hr
  | cons x rest ih =>
    intro r hr hlow hp
    cases r with
    | zero =>
      have hx : p x = true := by simpa using hp
      rw [List.filter_cons_of_pos hx]
      simp
    | succ r' =>
      have hx : p x = false := by
        have := hlow 0 (by omega)
        simpa using this
      rw [List.filter_cons_of_neg (by simp [hx])]
      have h1 : ∀ k, k < r' → p (rest.getD k d) = false := by
        intro k hk
        have := hlow (k + 1) (by omega)
        simpa using this
      have := ih r' (by simpa using hr) h1 (by simpa using hp)
      simpa using this

theorem ringTargetSpec_of_search (ring : List Nat) (hash : Nat)
    (hsorted : ring.Sorted (· ≤ ·)) (hne : ring ≠ []) :
    ringTargetSpec ring hash =
      some (ring.getD
        (if goSortSearch ring.length (fun i => hash ≤ ring.getD i 0) = ring.length
         then 0
         else goSortSearch ring.length (fun i => hash ≤ ring.getD i 0)) 0) := by
  have mono : ∀ a b, a ≤ b → b < ring.length →
      decide (hash ≤ ring.getD a 0) = true → decide (hash ≤ ring.getD b 0) = true := by
    intro a b hab hb hfa
    simp only [decide_eq_true_eq] at hfa ⊢
    refine le_trans hfa ?_
    rcases eq_or_lt_of_le hab with heq | hlt
    · rw [heq]
    · have ha : a < ring.length := by omega
      rw [List.getD_eq_getElem _ _ ha, List.getD_eq_getElem _ _ hb]
      have := List.pairwise_iff_get.mp hsorted ⟨a, ha⟩ ⟨b, hb⟩ hlt
      simpa using this
  obtain ⟨h1, h2, h3, h4⟩ := searchLoop_spec (fun i => hash ≤ ring.getD i 0)
    ring.length mono ring.length 0 ring.length (by omega) (le_refl _) (by omega)
  unfold goSortSearch
  by_cases hrn : searchLoop (fun i => decide (hash ≤ ring.getD i 0)) 0 ring.length =
      ring.length
  · rw [if_pos hrn]
    have hallf : ∀ k, k < ring.length → decide (hash ≤ ring.getD k 0) = false := by
      intro k hk
      exact h3 k (by omega) (by omega)
    have hfil : ring.filter (fun v => hash ≤ v) = [] := by
      rw [List.filter_eq_nil_iff]
      intro v hv
      obtain ⟨⟨k, hk⟩, hkv⟩ := List.mem_iff_get.mp hv
      have := hallf k hk
      rw [List.getD_eq_getElem _ _ hk] at this
      simp only [decide_eq_false_iff_not] at this
      simp only [decide_eq_true_eq]
      rw [← hkv]
      simpa using this
    unfold ringTargetSpec
    rw [hfil]
    have hgl : 0 < ring.length := List.length_pos.mpr hne
    show ring.head? = some (ring.getD 0 0)
    rw [List.getD_eq_getElem _ _ hgl, List.head?_eq_head hne]
    congr 1
    exact List.head_eq_getElem ring hne
  · rw [if_neg hrn]
    have hrlt : searchLoop (fun i => decide (hash ≤ ring.getD i 0)) 0 ring.length <
        ring.length := by omega
    have hfr := h4 hrlt
    have hlow : ∀ k, k < searchLoop (fun i => decide (hash ≤ ring.getD i 0)) 0
        ring.length → decide (hash ≤ ring.getD k 0) = false :=
      fun k hk => h3 k (by omega) hk
    have hhead : (ring.filter (fun v => hash ≤ v)).head? =
        some (ring.getD (searchLoop (fun i => decide (hash ≤ ring.getD i 0)) 0
          ring.length) 0) := by
      apply filter_head_of_least 0 (fun v => decide (hash ≤ v)) ring _ hrlt
      · intro k hk
        exact hlow k hk
      · exact hfr
    unfold ringTargetSpec
    cases hfil : ring.filter (fun v => hash ≤ v) with
    | nil => rw [hfil] at hhead; simp at hhead
    | cons v t =>
      rw [hfil] at hhead
      simp only [List.head?_cons, Option.some.injEq] at hhead
      simp [hhead]

/-- C4: with a non-empty (sorted) ring, ip-hash selection returns
whatever backend the map assigns to the ring position given by
`ringTargetSpec` — the smallest ring position `≥` the CRC-32-IEEE of
the request's full client address string (`host:port`, port not
stripped), wrapping to the first ring position when the hash exceeds
every position; with an empty ring it falls back to round-robin.  The
sortedness hypothesis is the ring invariant established by every
`UpdateHashRing` (claim C5). -/
theorem c4_ip_hash (s : Service) (addr : String)
    (hsorted : s.hashRing.Sorted (· ≤ ·)) :
    (s.hashRing = [] → ipHash s addr = roundRobin s) ∧
      (s.hashRing ≠ [] →
        ∃ pos, ringTargetSpec s.hashRing (crc32 (strBytes addr)) = some pos ∧
          ipHash s addr =
            ((match goMapLookup s.hashMap pos with
              | some b => SelectResult.found b
              | none => SelectResult.noBackend), s)) := by
  constructor
  · intro hempty
    unfold ipHash
    rw [if_pos (by rw [hempty]; rfl)]
  · intro hne
    have hlen : ¬ s.hashRing.length = 0 := by
      have := List.length_pos.mpr hne
      omega
    refine ⟨s.hashRing.getD
        (if goSortSearch s.hashRing.length
            (fun i => crc32 (strBytes addr) ≤ s.hashRing.getD i 0) = s.hashRing.length
         then 0
         else goSortSearch s.hashRing.length
            (fun i => crc32 (strBytes addr) ≤ s.hashRing.getD i 0)) 0,
      ringTargetSpec_of_search s.hashRing (crc32 (strBytes addr)) hsorted hne, ?_⟩
    have hstep : ipHash s addr =
        match goMapLookup s.hashMap (s.hashRing.getD
          (if goSortSearch s.hashRing.length
              (fun i => crc32 (strBytes addr) ≤ s.hashRing.getD i 0) = s.hashRing.length
           then 0
           else goSortSearch s.hashRing.length
              (fun i => crc32 (strBytes addr) ≤ s.hashRing.getD i 0)) 0) with
        | some b => (SelectResult.found b, s)
        | none => (SelectResult.noBackend, s) := by
      unfold ipHash
      rw [if_neg hlen]
    rw [hstep]
    rcases hlook : goMapLookup s.hashMap (s.hashRing.getD
        (if goSortSearch s.hashRing.length
            (fun i => crc32 (strBytes addr) ≤ s.hashRing.getD i 0) = s.hashRing.length
         then 0
         else goSortSearch s.hashRing.length
            (fun i => crc32 (strBytes addr) ≤ s.hashRing.getD i 0)) 0) with _ | b
    · rfl
    · rfl

def c4Service : Service :=
  { name := "svc"
    backends := [{ url := "http://b1", alive := true, activeConns := 0 },
                 { url := "http://b2", alive := true, activeConns := 0 }]
    counter := 0
    algorithm := "ip-hash"
    healthCheck := { enabled := false, interval := "", path := "" }
    hashRing := [10, 2000000000]
    hashMap := [(10, { url := "http://b1", alive := true, activeConns := 0 }),
                (2000000000, { url := "http://b2", alive := true, activeConns := 0 })] }

theorem c4_witness :
    List.Sorted (· ≤ ·) c4Service.hashRing ∧
      ((c4Service.hashRing = [] →
          ipHash c4Service "10.0.0.7:12345" = roundRobin c4Service) ∧
        (c4Service.hashRing ≠ [] →
          ∃ pos, ringTargetSpec c4Service.hashRing
              (crc32 (strBytes "10.0.0.7:12345")) = some pos ∧
            ipHash c4Service "10.0.0.7:12345" =
              ((match goMapLookup c4Service.hashMap pos with
                | some b => SelectResult.found b
                | none => SelectResult.noBackend), c4Service))) :=
  ⟨by decide, c4_ip_hash c4Service "10.0.0.7:12345" (by decide)⟩

/-! ## C1 — round-robin rotation fairness -/

theorem tmod_natCast (a b : Nat) : (a : Int).tmod (b : Int) = ((a % b : Nat) : Int) := by
  rw [Int.tmod_eq_emod (by positivity) (by positivity), Int.ofNat_emod]

/-- One iteration of the round-robin scan: when the counter arithmetic
stays below `2^63` the Go index computation is exactly
`(start + i) mod N`, and a backend that is alive there is returned. -/
theorem rrLoop_step_found (backends : List Backend) (start i rem : Nat)
    (hstart : start + i < 2 ^ 63) (hN : 0 < backends.length)
    (halive : (backends.getD ((start + i) % backends.length) nilBackend).alive = true) :
    rrLoop backends start i (rem + 1) =
      .found (backends.getD ((start + i) % backends.length) nilBackend) := by
  have hcomp : (wrapInt64 (goUint64ToInt start + (i : Int))).tmod
      (backends.length : Int) = (((start + i) % backends.length : Nat) : Int) := by
    rw [goUint64ToInt_eq_self (by omega)]
    rw [show ((start : Int) + (i : Int)) = ((start + i : Nat) : Int) by push_cast; ring]
    rw [wrapInt64_eq_self (Int.natCast_nonneg _) (by exact_mod_cast hstart)]
    exact tmod_natCast (start + i) backends.length
  have hm : (start + i) % backends.length < backends.length := Nat.mod_lt _ hN
  simp only [rrLoop, hcomp]
  rw [dif_pos ⟨Int.natCast_nonneg _, by rw [Int.toNat_natCast]; exact hm⟩]
  have hget : backends.get ⟨(((start + i) % backends.length : Nat) : Int).toNat,
      by rw [Int.toNat_natCast]; exact hm⟩ =
      backends.getD ((start + i) % backends.length) nilBackend := by
    rw [List.getD_eq_getElem _ _ hm]
    simp only [Int.toNat_natCast, List.get_eq_getElem]
  rw [hget, if_pos halive]

theorem roundRobin_step_all_alive (s : Service) (hN : 0 < s.backends.length)
    (hc : s.counter + 1 < 2 ^ 63)
    (halive : ∀ b ∈ s.backends, b.alive = true) :
    roundRobin s =
      (.found (s.backends.getD ((s.counter + 1) % s.backends.length) nilBackend),
        { s with counter := s.counter + 1 }) := by
  have hstart : (s.counter + 1) % 2 ^ 64 = s.counter + 1 :=
    Nat.mod_eq_of_lt (by omega)
  obtain ⟨n, hn⟩ := Nat.exists_eq_succ_of_ne_zero (by omega : s.backends.length ≠ 0)
  have hgetD : (s.backends.getD ((s.counter + 1) % s.backends.length) nilBackend).alive
      = true := by
    have hm : (s.counter + 1) % s.backends.length < s.backends.length :=
      Nat.mod_lt _ hN
    rw [List.getD_eq_getElem _ _ hm]
    exact halive _ (List.getElem_mem hm)
  simp only [roundRobin]
  rw [if_neg (by omega), hstart]
  have hloop := rrLoop_step_found s.backends (s.counter + 1) 0 n
    (by omega) hN (by simpa using hgetD)
  rw [hn] at hloop ⊢
  rw [hloop]

theorem selectRun_rr (r : Request) :
    ∀ (n : Nat) (s : Service), s.algorithm = "round-robin" →
      0 < s.backends.length → (∀ b ∈ s.backends, b.alive = true) →
      s.counter + n < 2 ^ 63 →
      selectRun r s n = (List.range n).map (fun j =>
        SelectResult.found (s.backends.getD
          ((s.counter + 1 + j) % s.backends.length) nilBackend)) := by
  intro n
  induction n with
  | zero => intro s _ _ _ _; rfl
  | succ n ih =>
    intro s halg hN halive hc
    have hgnb : getNextBackend s r = roundRobin s := by
      unfold getNextBackend
      rw [if_neg (by rw [halg]; decide), if_neg (by rw [halg]; decide)]
    have hrr := roundRobin_step_all_alive s hN (by omega) halive
    have htail := ih { s with counter := s.counter + 1 }
      (by simpa using halg) (by simpa using hN) (by simpa using halive)
      (by simpa using (by omega : s.counter + 1 + n < 2 ^ 63))
    simp only [selectRun, hgnb, hrr]
    dsimp only at htail ⊢
    rw [htail, List.range_succ_eq_map, List.map_cons, List.map_map]
    congr 1
    apply List.map_congr_left
    intro j _
    simp only [Function.comp_apply, Nat.succ_eq_add_one]
    have harg : s.counter + 1 + 1 + j = s.counter + 1 + (j + 1) := by omega
    rw [harg]

theorem countP_eq_one_of_unique {α : Type} (p : α → Bool) :
    ∀ (l : List α), l.Nodup → ∀ j0 ∈ l, p j0 = true →
      (∀ x ∈ l, p x = true → x = j0) → l.countP p = 1 := by
  intro l
  induction l with
  | nil => intro _ j0 h; simp at h
  | cons x rest ih =>
    intro hnd j0 hj0 hpj0 huniq
    rw [List.countP_cons]
    rcases List.mem_cons.mp hj0 with heq | hmem
    · subst heq
      rw [if_pos hpj0]
      have hzero : rest.countP p = 0 := List.countP_eq_zero.mpr (by
        intro y hy hpy
        have hyx := huniq y (List.mem_cons_of_mem _ hy) hpy
        rw [hyx] at hy
        exact (List.nodup_cons.mp hnd).1 hy)
      rw [hzero]
    · have hpx : p x = false := by
        cases hpc : p x
        · rfl
        · exfalso
          have hxj := huniq x (List.mem_cons_self x rest) hpc
          have hxnot := (List.nodup_cons.mp hnd).1
          rw [hxj] at hxnot
          exact hxnot hmem
      rw [if_neg (by simp [hpx])]
      rw [Nat.add_zero]
      exact ih (List.nodup_cons.mp hnd).2 j0 hmem hpj0
        (fun y hy hpy => huniq y (List.mem_cons_of_mem _ hy) hpy)

theorem countP_range_mod_block (N p : Nat) (hN : 0 < N) (hp : p < N) (a : Nat) :
    (List.range N).countP (fun j => decide ((a + j) % N = p)) = 1 := by
  have hm : a % N < N := Nat.mod_lt _ hN
  have hj0lt : (p + N - a % N) % N < N := Nat.mod_lt _ hN
  have hhit : (a + (p + N - a % N) % N) % N = p := by
    have h1 : (a + (p + N - a % N) % N) % N = (a + (p + N - a % N)) % N := by
      conv_lhs => rw [Nat.add_mod]
      conv_rhs => rw [Nat.add_mod]
      rw [Nat.mod_mod_of_dvd _ (dvd_refl N)]
    rw [h1]
    set t := N * (a / N) with hT
    set m := a % N with hM
    have hqq : t + m = a := by rw [hT, hM]; exact Nat.div_add_mod a N
    have hmlt : m < N := by rw [hM]; exact Nat.mod_lt _ hN
    have h2 : a + (p + N - m) = p + (t + N) := by omega
    rw [h2, hT, show N * (a / N) + N = N * (a / N + 1) from by ring,
        Nat.add_mul_mod_self_left]
    exact Nat.mod_eq_of_lt hp
  apply countP_eq_one_of_unique _ (List.range N) (List.nodup_range N)
    ((p + N - a % N) % N) (List.mem_range.mpr hj0lt)
  · simp only [decide_eq_true_eq]
    exact hhit
  · intro x hx hpx
    simp only [decide_eq_true_eq] at hpx
    have hxlt : x < N := List.mem_range.mp hx
    have hmodeq : a + x ≡ a + (p + N - a % N) % N [MOD N] := by
      unfold Nat.ModEq
      rw [hpx, hhit]
    have hxj := Nat.ModEq.add_left_cancel' a hmodeq
    unfold Nat.ModEq at hxj
    rw [Nat.mod_eq_of_lt hxlt, Nat.mod_eq_of_lt hj0lt] at hxj
    exact hxj

theorem countP_range_mod (N p : Nat) (hN : 0 < N) (hp : p < N) :
    ∀ (k a : Nat),
      (List.range (k * N)).countP (fun j => decide ((a + j) % N = p)) = k := by
  intro k
  induction k with
  | zero => intro a; simp
  | succ k ih =>
    intro a
    have hkN : (k + 1) * N = k * N + N := by ring
    rw [hkN, List.range_add, List.countP_append, ih a, List.countP_map]
    have hfun : ((fun j => decide ((a + j) % N = p)) ∘ (fun x => k * N + x)) =
        fun x => decide ((a + k * N + x) % N = p) := by
      funext x
      simp only [Function.comp_apply]
      have harg : a + (k * N + x) = a + k * N + x := by ring
      rw [harg]
    rw [hfun, countP_range_mod_block N p hN hp (a + k * N)]

/-- C1: for a round-robin service with `N ≥ 1` pairwise-distinct
backends, all alive, the selector returns the backend at position
`(start) mod N` of the atomically incremented counter, and `k·N`
consecutive selections return each backend exactly `k` times.  The
counter-range hypothesis keeps the whole run below `2^63`, i.e. away
from the signed-conversion defect established for claim C2; within
that range the code's index is exactly `(start + i) mod N`. -/
theorem c1_round_robin_fairness (s : Service) (r : Request) (k p : Nat)
    (halg : s.algorithm = "round-robin")
    (hN : 0 < s.backends.length)
    (halive : ∀ b ∈ s.backends, b.alive = true)
    (hnd : s.backends.Nodup)
    (hc : s.counter + k * s.backends.length < 2 ^ 63)
    (hp : p < s.backends.length) :
    (selectRun r s (k * s.backends.length)).count
      (SelectResult.found (s.backends.getD p nilBackend)) = k := by
  rw [selectRun_rr r (k * s.backends.length) s halg hN halive hc]
  rw [List.count_eq_countP, List.countP_map]
  have hfun : ∀ j ∈ List.range (k * s.backends.length),
      ((fun x => x == SelectResult.found (s.backends.getD p nilBackend)) ∘
        (fun j => SelectResult.found (s.backends.getD
          ((s.counter + 1 + j) % s.backends.length) nilBackend))) j = true ↔
      (fun j => decide ((s.counter + 1 + j) % s.backends.length = p)) j = true := by
    intro j _
    simp only [Function.comp_apply, beq_iff_eq, decide_eq_true_eq]
    have hidx : (s.counter + 1 + j) % s.backends.length < s.backends.length :=
      Nat.mod_lt _ hN
    rw [List.getD_eq_getElem _ _ hidx, List.getD_eq_getElem _ _ hp]
    constructor
    · intro hfound
      have hel : s.backends[(s.counter + 1 + j) % s.backends.length] =
          s.backends[p] := by
        simpa using hfound
    
      have hfin := (@List.Nodup.get_inj_iff _ s.backends hnd
        ⟨(s.counter + 1 + j) % s.backends.length, hidx⟩
        ⟨p, hp⟩).mp (by simpa [List.get_eq_getElem] using hel)
      simpa using hfin
    · intro hip
      simp only [hip]
  rw [List.countP_congr hfun]
  exact countP_range_mod s.backends.length p hN hp k (s.counter + 1)

def c1Service : Service :=
  { name := "svc"
    backends := [{ url := "http://b1", alive := true, activeConns := 0 },
                 { url := "http://b2", alive := true, activeConns := 0 }]
    counter := 0
    algorithm := "round-robin"
    healthCheck := { enabled := false, interval := "", path := "" }
    hashRing := []
    hashMap := [] }

theorem c1_witness :
    c1Service.algorithm = "round-robin" ∧
      0 < c1Service.backends.length ∧
      (∀ b ∈ c1Service.backends, b.alive = true) ∧
      c1Service.backends.Nodup ∧
      c1Service.counter + 2 * c1Service.backends.length < 2 ^ 63 ∧
      0 < c1Service.backends.length ∧
      (selectRun { remoteAddr := "", path := "/a", method := "GET" } c1Service
        (2 * c1Service.backends.length)).count
        (SelectResult.found (c1Service.backends.getD 0 nilBackend)) = 2 :=
  ⟨rfl, by decide, by decide, by decide, by decide, by decide,
    c1_round_robin_fairness c1Service _ 2 0 rfl (by decide) (by decide)
      (by decide) (by decide) (by decide)⟩

/-! ## C7 — request handling, 503 and metrics -/

theorem rrLoop_ne_panicked (backends : List Backend) (start : Nat) :
    ∀ (rem i : Nat), 0 < backends.length → start + i + rem ≤ 2 ^ 63 →
      rrLoop backends start i rem ≠ SelectResult.panicked := by
  intro rem
  induction rem with
  | zero => intro i _ _; simp [rrLoop]
  | succ rem ih =>
    intro i hN hbound
    have hstart : start + i < 2 ^ 63 := by omega
    have hcomp : (wrapInt64 (goUint64ToInt start + (i : Int))).tmod
        (backends.length : Int) = (((start + i) % backends.length : Nat) : Int) := by
      rw [goUint64ToInt_eq_self (by omega)]
      rw [show ((start : Int) + (i : Int)) = ((start + i : Nat) : Int) by push_cast; ring]
      rw [wrapInt64_eq_self (Int.natCast_nonneg _) (by exact_mod_cast hstart)]
      exact tmod_natCast (start + i) backends.length
    have hm : (start + i) % backends.length < backends.length := Nat.mod_lt _ hN
    simp only [rrLoop, hcomp]
    split
    · split
      · simp
      · exact ih (i + 1) hN (by omega)
    · next h =>
      exact absurd ⟨Int.natCast_nonneg _, by rw [Int.toNat_natCast]; exact hm⟩ h

theorem rrLoop_all_dead (backends : List Backend) (start : Nat)
    (hdead : ∀ b ∈ backends, b.alive = false) :
    ∀ (rem i : Nat), 0 < backends.length → start + i + rem ≤ 2 ^ 63 →
      rrLoop backends start i rem = SelectResult.noBackend := by
  intro rem
  induction rem with
  | zero => intro i _ _; simp [rrLoop]
  | succ rem ih =>
    intro i hN hbound
    have hstart : start + i < 2 ^ 63 := by omega
    have hcomp : (wrapInt64 (goUint64ToInt start + (i : Int))).tmod
        (backends.length : Int) = (((start + i) % backends.length : Nat) : Int) := by
      rw [goUint64ToInt_eq_self (by omega)]
      rw [show ((start : Int) + (i : Int)) = ((start + i : Nat) : Int) by push_cast; ring]
      rw [wrapInt64_eq_self (Int.natCast_nonneg _) (by exact_mod_cast hstart)]
      exact tmod_natCast (start + i) backends.length
    have hm : (start + i) % backends.length < backends.length := Nat.mod_lt _ hN
    simp only [rrLoop, hcomp]
    split
    · next hok =>
      split
      · next halive =>
        exfalso
        have hmem := List.get_mem backends _ hok.2
        have := hdead _ hmem
        rw [halive] at this
        exact absurd this (by simp)
      · exact ih (i + 1) hN (by omega)
    · next h =>
      exact absurd ⟨Int.natCast_nonneg _, by rw [Int.toNat_natCast]; exact hm⟩ h

theorem roundRobin_no_panic (s : Service)
    (hc : s.counter + 1 + s.backends.length ≤ 2 ^ 63) :
    (roundRobin s).1 ≠ SelectResult.panicked := by
  simp only [roundRobin]
  by_cases h0 : s.backends.length = 0
  · rw [if_pos h0]
    simp
  · rw [if_neg h0]
    have hstart : (s.counter + 1) % 2 ^ 64 = s.counter + 1 :=
      Nat.mod_eq_of_lt (by omega)
    rw [hstart]
    exact rrLoop_ne_panicked s.backends (s.counter + 1) s.backends.length 0
      (by omega) (by omega)

theorem roundRobin_all_dead (s : Service)
    (hc : s.counter + 1 + s.backends.length ≤ 2 ^ 63)
    (hdead : ∀ b ∈ s.backends, b.alive = false) :
    (roundRobin s).1 = SelectResult.noBackend := by
  simp only [roundRobin]
  by_cases h0 : s.backends.length = 0
  · rw [if_pos h0]
  · rw [if_neg h0]
    have hstart : (s.counter + 1) % 2 ^ 64 = s.counter + 1 :=
      Nat.mod_eq_of_lt (by omega)
    rw [hstart]
    exact rrLoop_all_dead s.backends (s.counter + 1) hdead s.backends.length 0
      (by omega) (by omega)

theorem lcLoop_all_dead (l : List Backend) (hdead : ∀ b ∈ l, b.alive = false) :
    ∀ acc m, lcLoop l acc m = acc := by
  induction l with
  | nil => intro acc m; rfl
  | cons x rest ih =>
    intro acc m
    have hx : x.alive = false := hdead x (List.mem_cons_self x rest)
    simp only [lcLoop, hx]
    exact ih (fun b hb => hdead b (List.mem_cons_of_mem x hb)) acc m

theorem matchPair_ne_panicked (o : Option Backend) (s' : Service) :
    ((match o with
      | some b => (SelectResult.found b, s')
      | none => (SelectResult.noBackend, s')) : SelectResult × Service).1 ≠
      SelectResult.panicked := by
  cases o <;> simp

theorem getNextBackend_no_panic (s : Service) (r : Request)
    (hc : s.counter + 1 + s.backends.length ≤ 2 ^ 63) :
    (getNextBackend s r).1 ≠ SelectResult.panicked := by
  unfold getNextBackend
  by_cases h1 : s.algorithm = "least-connections"
  · rw [if_pos h1]
    exact matchPair_ne_panicked (leastConnections s) s
  · rw [if_neg h1]
    by_cases h2 : s.algorithm = "ip-hash"
    · rw [if_pos h2]
      unfold ipHash
      by_cases h3 : s.hashRing.length = 0
      · rw [if_pos h3]
        exact roundRobin_no_panic s hc
      · rw [if_neg h3]
        exact matchPair_ne_panicked _ s
    · rw [if_neg h2]
      exact roundRobin_no_panic s hc

theorem getNextBackend_all_dead (s : Service) (r : Request)
    (hc : s.counter + 1 + s.backends.length ≤ 2 ^ 63)
    (hring : ∀ q ∈ s.hashMap, q.2 ∈ s.backends ∧ q.2.alive = true)
    (hdead : ∀ b ∈ s.backends, b.alive = false) :
    (getNextBackend s r).1 = SelectResult.noBackend := by
  unfold getNextBackend
  by_cases h1 : s.algorithm = "least-connections"
  · rw [if_pos h1]
    have hlc : leastConnections s = none := lcLoop_all_dead s.backends hdead none (-1)
    rw [hlc]
  · rw [if_neg h1]
    by_cases h2 : s.algorithm = "ip-hash"
    · rw [if_pos h2]
      unfold ipHash
      by_cases h3 : s.hashRing.length = 0
      · rw [if_pos h3]
        exact roundRobin_all_dead s hc hdead
      · rw [if_neg h3]
        have hmap : s.hashMap = [] := by
          cases hsm : s.hashMap with
          | nil => rfl
          | cons q t =>
            have hq := hring q (by rw [hsm]; exact List.mem_cons_self q t)
            have hqd := hdead q.2 hq.1
            rw [hq.2] at hqd
            exact absurd hqd (by simp)
        rw [hmap]
        rfl
    · rw [if_neg h2]
      exact roundRobin_all_dead s hc hdead

/-- C7: whenever the selector does not hit the signed-counter defect
(counter range hypothesis, cf. C2) and the hash-ring map is consistent
(its entries point to alive backends of this service — the invariant
maintained by `UpdateHashRing`, cf. C5), every handled request
completes with exactly one request-count increment and one
request-duration observation, both labeled with the service name, the
request path, the method and the final status code string; a selector
that returns no backend — in particular a service with zero backends
or with every backend down, under any algorithm — yields status 503. -/
theorem c7_serve_metrics_and_503 (forward : Backend → Request → Option Nat)
    (s : Service) (r : Request)
    (hc : s.counter + 1 + s.backends.length ≤ 2 ^ 63)
    (hring : ∀ q ∈ s.hashMap, q.2 ∈ s.backends ∧ q.2.alive = true) :
    ∃ o, (serveHTTP forward s r).1 = ServeResult.completed o ∧
      o.countEvents = [⟨s.name, r.path, r.method, toString o.status⟩] ∧
      o.durationEvents = [⟨s.name, r.path, r.method, toString o.status⟩] ∧
      ((getNextBackend s r).1 = SelectResult.noBackend → o.status = 503) ∧
      ((∀ b ∈ s.backends, b.alive = false) → o.status = 503) := by
  have hnp := getNextBackend_no_panic s r hc
  rcases hsel : (getNextBackend s r).1 with b | _ | _
  · -- a backend was found
    refine ⟨{ status := (forward b r).getD 200
              countEvents := [⟨s.name, r.path, r.method, toString ((forward b r).getD 200)⟩]
              durationEvents := [⟨s.name, r.path, r.method, toString ((forward b r).getD 200)⟩] },
      ?_, rfl, rfl, ?_, ?_⟩
    · simp only [serveHTTP, hsel]
    · intro h
      exact SelectResult.noConfusion h
    · intro hdead
      have hcontra := getNextBackend_all_dead s r hc hring hdead
      rw [hsel] at hcontra
      exact SelectResult.noConfusion hcontra
  · -- no backend: 503
    refine ⟨{ status := 503
              countEvents := [⟨s.name, r.path, r.method, toString 503⟩]
              durationEvents := [⟨s.name, r.path, r.method, toString 503⟩] },
      ?_, rfl, rfl, fun _ => rfl, fun _ => rfl⟩
    simp only [serveHTTP, hsel]
  · exact absurd hsel hnp

def c7Service : Service :=
  { name := "svc"
    backends := [{ url := "http://b1", alive := true, activeConns := 0 }]
    counter := 0
    algorithm := "round-robin"
    healthCheck := { enabled := false, interval := "", path := "" }
    hashRing := []
    hashMap := [] }

theorem c7_witness :
    c7Service.counter + 1 + c7Service.backends.length ≤ 2 ^ 63 ∧
      (∀ q ∈ c7Service.hashMap, q.2 ∈ c7Service.backends ∧ q.2.alive = true) ∧
      ∃ o, (serveHTTP (fun _ _ => some 200) c7Service
          { remoteAddr := "10.0.0.7:1", path := "/a", method := "GET" }).1 =
          ServeResult.completed o ∧
        o.countEvents = [⟨c7Service.name, "/a", "GET", toString o.status⟩] ∧
        o.durationEvents = [⟨c7Service.name, "/a", "GET", toString o.status⟩] ∧
        ((getNextBackend c7Service
            { remoteAddr := "10.0.0.7:1", path := "/a", method := "GET" }).1 =
          SelectResult.noBackend → o.status = 503) ∧
        ((∀ b ∈ c7Service.backends, b.alive = false) → o.status = 503) :=
  ⟨by decide, by simp [c7Service], c7_serve_metrics_and_503 (fun _ _ => some 200)
    c7Service { remoteAddr := "10.0.0.7:1", path := "/a", method := "GET" }
    (by decide) (by simp [c7Service])⟩
